import Mathlib

/-!
Verification of the fetch/merge engine of the `sorare_auctions` repository
(`src/fetch_auctions.py`), as a shallow embedding in Lean.

Prices are rationals: the Python `usd_cents / 100.0` becomes
`(usdCents : ℚ) / 100`.  Python dicts `{date: price}` are modelled as
ordered key/value lists with first-match lookup and in-place update,
matching Python insertion-order semantics; dict equality (Python `==`)
is extensional equality of lookups (`dictEq`).
-/

/-- One player's persisted auction history: the Python dict `{date: price}`
handled by `load_history` / `save_history` / `_process_player_results`,
modelled as an ordered key/value list. -/
abbrev History := List (String × ℚ)

/-- Python `history.get(date)`-style lookup: first matching key. -/
def dictLookup : History → String → Option ℚ
  | [], _ => none
  | (k', v) :: rest, k => if k = k' then some v else dictLookup rest k

/-- Python `date in history`. -/
def dictContains (h : History) (k : String) : Bool :=
  (dictLookup h k).isSome

/-- Python `history[date] = price`: update in place when the key exists
(keeping its position), append at the end otherwise. -/
def dictSet : History → String → ℚ → History
  | [], k, v => [(k, v)]
  | (k', v') :: rest, k, v =>
    if k = k' then (k', v) :: rest else (k', v') :: dictSet rest k v

/-- The merge loop of `_process_player_results` (src/fetch_auctions.py:284-288):
walks the batch of `(date, price)` records, counts the dates that are not yet
in the history, and assigns `history[date] = price` for each record. -/
def mergeAux : History → Nat → List (String × ℚ) → History × Nat
  | h, c, [] => (h, c)
  | h, c, (date, price) :: rest =>
    mergeAux (dictSet h date price) (if dictContains h date then c else c + 1) rest

/-- `merge(history, new_auctions)` of the spec: the updated history together
with `new_count`, as computed by `_process_player_results`. -/
def merge (h : History) (newAuctions : List (String × ℚ)) : History × Nat :=
  mergeAux h 0 newAuctions

/-- History component of `merge`. -/
def mergeH (h : History) (newAuctions : List (String × ℚ)) : History :=
  (merge h newAuctions).1

/-- `new_count` component of `merge`. -/
def mergeC (h : History) (newAuctions : List (String × ℚ)) : Nat :=
  (merge h newAuctions).2

/-- Python `==` on dicts: same value (or absence) at every key. -/
def dictEq (h₁ h₂ : History) : Prop :=
  ∀ k, dictLookup h₁ k = dictLookup h₂ k

/-- Value attached to the last record of the batch carrying a given date
(Python dict assignment is last-write-wins). -/
def lastVal : List (String × ℚ) → String → Option ℚ
  | [], _ => none
  | (d, p) :: rest, k =>
    match lastVal rest k with
    | some v => some v
    | none => if k = d then some p else none

/-- A record batch whose records never pair one date with two prices. -/
def datesAgree (rs : List (String × ℚ)) : Prop :=
  ∀ p ∈ rs, ∀ q ∈ rs, p.1 = q.1 → p.2 = q.2

lemma dictLookup_dictSet (h : History) (k : String) (v : ℚ) (k' : String) :
    dictLookup (dictSet h k v) k' = if k' = k then some v else dictLookup h k' := by
  induction h with
  | nil => simp [dictSet, dictLookup]
  | cons p rest ih =>
    obtain ⟨k₁, v₁⟩ := p
    by_cases hk : k = k₁
    · subst hk
      by_cases hk' : k' = k <;> simp [dictSet, dictLookup, hk']
    · by_cases hk' : k' = k₁
      · subst hk'
        have : ¬ k' = k := fun hh => hk hh.symm
        simp [dictSet, hk, dictLookup, this]
      · simp [dictSet, hk, dictLookup, hk', ih]

lemma dictContains_dictSet_self (h : History) (k : String) (v : ℚ) :
    dictContains (dictSet h k v) k = true := by
  simp [dictContains, dictLookup_dictSet]

lemma dictContains_dictSet_of_contains (h : History) (k d : String) (v : ℚ)
    (hc : dictContains h k = true) : dictContains (dictSet h d v) k = true := by
  by_cases hk : k = d <;> simp [dictContains, dictLookup_dictSet, hk] at hc ⊢
  exact hc

lemma length_dictSet_ge (h : History) (k : String) (v : ℚ) :
    h.length ≤ (dictSet h k v).length := by
  induction h with
  | nil => simp [dictSet]
  | cons p rest ih =>
    obtain ⟨k₁, v₁⟩ := p
    by_cases hk : k = k₁ <;> simp [dictSet, hk]
    exact ih

lemma mergeAux_fst_congr (rs : List (String × ℚ)) :
    ∀ (h : History) (c c' : Nat), (mergeAux h c rs).1 = (mergeAux h c' rs).1 := by
  induction rs with
  | nil => intro h c c'; rfl
  | cons p rest ih =>
    intro h c c'
    obtain ⟨d, q⟩ := p
    simp only [mergeAux]
    exact ih _ _ _

lemma mergeH_cons (h : History) (d : String) (p : ℚ) (rest : List (String × ℚ)) :
    mergeH h ((d, p) :: rest) = mergeH (dictSet h d p) rest := by
  simp only [mergeH, merge, mergeAux]
  exact mergeAux_fst_congr rest _ _ _

lemma dictLookup_mergeH (rs : List (String × ℚ)) :
    ∀ (h : History) (k : String),
      dictLookup (mergeH h rs) k =
        match lastVal rs k with
        | some v => some v
        | none => dictLookup h k := by
  induction rs with
  | nil => intro h k; simp [mergeH, merge, mergeAux, lastVal]
  | cons pr rest ih =>
    intro h k
    obtain ⟨d, p⟩ := pr
    rw [mergeH_cons, ih]
    cases hlv : lastVal rest k with
    | some v => simp [lastVal, hlv]
    | none =>
      by_cases hk : k = d
      · subst hk
        simp [lastVal, hlv, dictLookup_dictSet]
      · simp [lastVal, hlv, hk, dictLookup_dictSet]

lemma lastVal_isSome_of_mem (rs : List (String × ℚ)) (k : String)
    (hm : k ∈ rs.map Prod.fst) : ∃ v, lastVal rs k = some v := by
  induction rs with
  | nil => simp at hm
  | cons pr rest ih =>
    obtain ⟨d, p⟩ := pr
    simp only [List.map_cons, List.mem_cons] at hm
    cases hlv : lastVal rest k with
    | some v => exact ⟨v, by simp [lastVal, hlv]⟩
    | none =>
      rcases hm with hm | hm
      · subst hm
        exact ⟨p, by simp [lastVal, hlv]⟩
      · rcases ih hm with ⟨v, hv⟩
        rw [hv] at hlv; cases hlv

lemma lastVal_none_iff (rs : List (String × ℚ)) (k : String) :
    lastVal rs k = none ↔ k ∉ rs.map Prod.fst := by
  constructor
  · intro hn hm
    rcases lastVal_isSome_of_mem rs k hm with ⟨v, hv⟩
    rw [hv] at hn; cases hn
  · intro hm
    cases hlv : lastVal rs k with
    | none => rfl
    | some v =>
      exfalso
      induction rs with
      | nil => simp [lastVal] at hlv
      | cons pr rest ih =>
        obtain ⟨d, p⟩ := pr
        simp only [List.map_cons, List.mem_cons, not_or] at hm
        cases hrest : lastVal rest k with
        | some w =>
          exact ih hm.2 (by simp [lastVal, hrest] at hlv; simp [hlv ▸ hrest])
        | none =>
          simp [lastVal, hrest] at hlv
          exact hm.1 hlv.1

lemma dictContains_mergeH_of_contains (h : History) (rs : List (String × ℚ))
    (k : String) (hc : dictContains h k = true) :
    dictContains (mergeH h rs) k = true := by
  have := dictLookup_mergeH rs h k
  cases hlv : lastVal rs k <;>
    simp [dictContains, this, hlv] at hc ⊢
  exact hc

lemma dictContains_mergeH_of_mem (h : History) (rs : List (String × ℚ))
    (k : String) (hm : k ∈ rs.map Prod.fst) :
    dictContains (mergeH h rs) k = true := by
  rcases lastVal_isSome_of_mem rs k hm with ⟨v, hv⟩
  simp [dictContains, dictLookup_mergeH, hv]

lemma length_mergeH_ge (rs : List (String × ℚ)) :
    ∀ h : History, h.length ≤ (mergeH h rs).length := by
  induction rs with
  | nil => intro h; simp [mergeH, merge, mergeAux]
  | cons pr rest ih =>
    intro h
    obtain ⟨d, p⟩ := pr
    rw [mergeH_cons]
    exact le_trans (length_dictSet_ge h d p) (ih _)

lemma mergeC_cons_of_contains (h : History) (d : String) (p : ℚ)
    (rest : List (String × ℚ)) (hc : dictContains h d = true) :
    mergeC h ((d, p) :: rest) = mergeC (dictSet h d p) rest := by
  simp [mergeC, merge, mergeAux, hc]

lemma mergeC_zero_of_all_contained (rs : List (String × ℚ)) :
    ∀ h : History, (∀ k ∈ rs.map Prod.fst, dictContains h k = true) →
      mergeC h rs = 0 := by
  induction rs with
  | nil => intro h _; rfl
  | cons pr rest ih =>
    intro h hall
    obtain ⟨d, p⟩ := pr
    have hd : dictContains h d = true := hall d (by simp)
    rw [mergeC_cons_of_contains h d p rest hd]
    refine ih _ ?_
    intro k hk
    exact dictContains_dictSet_of_contains h k d p (hall k (by simp [hk]))

lemma lastVal_mem (rs : List (String × ℚ)) (k : String) (v : ℚ)
    (hv : lastVal rs k = some v) : (k, v) ∈ rs := by
  induction rs with
  | nil => simp [lastVal] at hv
  | cons pr rest ih =>
    obtain ⟨d, p⟩ := pr
    cases hrest : lastVal rest k with
    | some w =>
      simp [lastVal, hrest] at hv
      exact List.mem_cons_of_mem _ (ih (hv ▸ hrest))
    | none =>
      simp only [lastVal, hrest] at hv
      by_cases hk : k = d
      · rw [if_pos hk] at hv
        cases hv
        rw [hk]
        exact List.mem_cons_self _ _
      · rw [if_neg hk] at hv
        cases hv

lemma lastVal_of_mem_agree (rs : List (String × ℚ)) (hag : datesAgree rs)
    (k : String) (v : ℚ) (hm : (k, v) ∈ rs) : lastVal rs k = some v := by
  rcases lastVal_isSome_of_mem rs k (by exact List.mem_map_of_mem Prod.fst hm) with ⟨w, hw⟩
  have hwmem : (k, w) ∈ rs := lastVal_mem rs k w hw
  have : w = v := hag (k, w) hwmem (k, v) hm rfl
  rw [hw, this]

lemma datesAgree_perm (rs rs' : List (String × ℚ)) (hp : rs.Perm rs')
    (hag : datesAgree rs) : datesAgree rs' := by
  intro p hpm q hqm
  exact hag p (hp.symm.subset hpm) q (hp.symm.subset hqm)

lemma lastVal_perm (rs rs' : List (String × ℚ)) (hp : rs.Perm rs')
    (hag : datesAgree rs) (k : String) : lastVal rs k = lastVal rs' k := by
  cases hlv : lastVal rs k with
  | some v =>
    have hm : (k, v) ∈ rs' := hp.subset (lastVal_mem rs k v hlv)
    exact (lastVal_of_mem_agree rs' (datesAgree_perm rs rs' hp hag) k v hm).symm
  | none =>
    have hk : k ∉ rs.map Prod.fst := (lastVal_none_iff rs k).1 hlv
    have hk' : k ∉ rs'.map Prod.fst := by
      intro hmm
      exact hk ((hp.map Prod.fst).mem_iff.2 hmm)
    exact ((lastVal_none_iff rs' k).2 hk').symm

/-- C1 (amended): merging the same batch twice changes nothing and reports
zero new records, for every history and every batch — duplicate dates
included; merging a batch's records in a different order yields the same
history provided no date occurs with two different prices. -/
theorem merge_idempotent_orderIndep (h : History) (rs rs' : List (String × ℚ)) :
    dictEq (mergeH (mergeH h rs) rs) (mergeH h rs) ∧
    mergeC (mergeH h rs) rs = 0 ∧
    (rs.Perm rs' → datesAgree rs → dictEq (mergeH h rs) (mergeH h rs')) := by
  refine ⟨?_, ?_, ?_⟩
  · intro k
    rw [dictLookup_mergeH, dictLookup_mergeH]
    cases hlv : lastVal rs k <;> simp
  · refine mergeC_zero_of_all_contained rs (mergeH h rs) ?_
    intro k hk
    exact dictContains_mergeH_of_mem h rs k hk
  · intro hperm hagree k
    rw [dictLookup_mergeH, dictLookup_mergeH, lastVal_perm rs rs' hperm hagree k]

/-- C1 witness: idempotence and the zero repeat count instantiated at a batch
with a duplicated, conflicting date, and order-independence at a conflict-free
batch and a permutation of it. -/
theorem merge_idempotent_orderIndep_witness :
    dictEq (mergeH (mergeH [] [("a", (1 : ℚ)), ("a", 2)]) [("a", (1 : ℚ)), ("a", 2)])
        (mergeH [] [("a", (1 : ℚ)), ("a", 2)]) ∧
    mergeC (mergeH [] [("a", (1 : ℚ)), ("a", 2)]) [("a", (1 : ℚ)), ("a", 2)] = 0 ∧
    dictEq (mergeH [] [("b", (5 : ℚ)), ("c", 7)]) (mergeH [] [("c", (7 : ℚ)), ("b", 5)]) :=
  ⟨(merge_idempotent_orderIndep [] [("a", (1 : ℚ)), ("a", 2)]
      [("a", (1 : ℚ)), ("a", 2)]).1,
   (merge_idempotent_orderIndep [] [("a", (1 : ℚ)), ("a", 2)]
      [("a", (1 : ℚ)), ("a", 2)]).2.1,
   (merge_idempotent_orderIndep [] [("b", (5 : ℚ)), ("c", 7)]
      [("c", (7 : ℚ)), ("b", 5)]).2.2
     (List.Perm.swap _ _ _) (by unfold datesAgree; decide)⟩

/-- C1 counterexample: merging the records of a batch in a different order can
change the final history when the batch pairs one date with two prices, so the
claimed unconditional order-independence of merge is false. -/
theorem merge_orderIndep_counterexample :
    ¬ dictEq (mergeH [] [("a", (1 : ℚ)), ("a", 2)]) (mergeH [] [("a", (2 : ℚ)), ("a", 1)]) := by
  intro hd
  have h1 : dictLookup (mergeH [] [("a", (1 : ℚ)), ("a", 2)]) "a" = some 2 := by decide
  have h2 : dictLookup (mergeH [] [("a", (2 : ℚ)), ("a", 1)]) "a" = some 1 := by decide
  have := hd "a"
  rw [h1, h2] at this
  exact absurd (Option.some.inj this) (by norm_num)

/-- C2: merging never removes a key (every key of the history is still present
after the merge) and never shrinks the history. -/
theorem merge_monotone (h : History) (rs : List (String × ℚ)) :
    (∀ k, dictContains h k = true → dictContains (mergeH h rs) k = true) ∧
    h.length ≤ (mergeH h rs).length :=
  ⟨fun k hk => dictContains_mergeH_of_contains h rs k hk, length_mergeH_ge rs h⟩

/-- C2 witness: concrete instance of key preservation and monotone growth. -/
theorem merge_monotone_witness :
    dictContains (mergeH [("a", (1 : ℚ))] [("b", 2)]) "a" = true ∧
    [("a", (1 : ℚ))].length ≤ (mergeH [("a", (1 : ℚ))] [("b", 2)]).length :=
  ⟨(merge_monotone [("a", (1 : ℚ))] [("b", 2)]).1 "a" (by decide),
    (merge_monotone [("a", (1 : ℚ))] [("b", 2)]).2⟩

/-- Characters of the lowercase pattern scanned for by `_has_complexity_error`. -/
def complexityChars : List Char := "complexity".data

/-- Bool-valued check that one char list starts with another. -/
def leadsWith : List Char → List Char → Bool
  | [], _ => true
  | _ :: _, [] => false
  | p :: ps, c :: cs => p == c && leadsWith ps cs

/-- Bool-valued substring containment on char lists (Python `pat in s`). -/
def containsSub : List Char → List Char → Bool
  | pat, [] => leadsWith pat []
  | pat, c :: cs => leadsWith pat (c :: cs) || containsSub pat cs

/-- `_has_complexity_error` applied to one error message
(src/fetch_auctions.py:85-91): Python `"complexity" in msg.lower()`. -/
def msgSignalsComplexity (msg : String) : Bool :=
  containsSub complexityChars (msg.data.map Char.toLower)

/-- `_has_complexity_error(body)`: some error message of the response body
contains the substring "complexity", case-insensitively. -/
def hasComplexityError (errors : List String) : Bool :=
  errors.any msgSignalsComplexity

/-- One element of a `tokenPrices` response list: the optional
`deal { ... on TokenAuction { id } }` identifier (absent or empty when the
record is not a completed auction), the `amounts { usdCents }` value, and
the optional `date`. -/
structure TokenPrice where
  dealId : Option String
  usdCents : Int
  date : Option String
deriving DecidableEq

/-- Python truthiness of `deal and deal.get("id")`. -/
def hasDealId (tp : TokenPrice) : Bool :=
  match tp.dealId with
  | some i => i != ""
  | none => false

/-- `_parse_token_prices` (src/fetch_auctions.py:115-127), also the inlined
record-collection loop of `fetch_auction_prices` (lines 232-238): keep the
records with a deal id, as `(date, usd_cents / 100.0)`. -/
def parseTokenPrices : List TokenPrice → List (String × ℚ)
  | [] => []
  | tp :: rest =>
    if hasDealId tp then
      (tp.date.getD "", (tp.usdCents : ℚ) / 100) :: parseTokenPrices rest
    else parseTokenPrices rest

/-- Code-point lexicographic order on char lists: Python `<` on strings. -/
def charListLt : List Char → List Char → Bool
  | _, [] => false
  | [], _ :: _ => true
  | a :: as, b :: bs =>
    if a.toNat < b.toNat then true
    else if b.toNat < a.toNat then false
    else charListLt as bs

/-- Python `d < oldest_date` on strings. -/
def strLt (a b : String) : Bool := charListLt a.data b.data

/-- The oldest truthy `date` of a page (src/fetch_auctions.py:240-244),
tracked as the pagination cursor candidate. -/
def oldestDate (tps : List TokenPrice) : Option String :=
  tps.foldl
    (fun acc tp =>
      match tp.date with
      | none => acc
      | some d =>
        if d = "" then acc
        else
          match acc with
          | none => some d
          | some o => if strLt d o then some d else some o)
    none

/-- `BATCH_SIZE` (src/fetch_auctions.py:30): max results per player per call. -/
def BATCH_SIZE : Nat := 20

/-- One API response to a single-player page request: the `errors` messages
and the `data.tokens.tokenPrices` list, each `or []`-defaulted to empty as in
src/fetch_auctions.py:225-227. -/
structure Page where
  errors : List String
  tokenPrices : List TokenPrice
deriving DecidableEq

/-- Result of running the pagination loop with bounded fuel. -/
inductive FetchResult where
  | done : List (String × ℚ) → Nat → FetchResult
  | fuelOut : FetchResult
deriving DecidableEq

/-- The `while True` pagination loop of `fetch_auction_prices`
(src/fetch_auctions.py:197-256).  `pages i` is the response the API returns
to the `i`-th request of this run; `toC` is the `to` cursor used for the
current request, `prevC` the cursor used two requests before the next one
(`prev_cursor`), `acc` the accumulated `results`.  On `done recs n`, `recs`
is the returned record list and `n` the number of requests issued. -/
def fetchGo (pages : Nat → Page) : Nat → Nat → Option String → Option String →
    List (String × ℚ) → FetchResult
  | 0, _, _, _, _ => FetchResult.fuelOut
  | fuel + 1, i, toC, prevC, acc =>
    if hasComplexityError (pages i).errors then FetchResult.done acc (i + 1)
    else if (pages i).tokenPrices = [] then FetchResult.done acc (i + 1)
    else if (pages i).tokenPrices.length < BATCH_SIZE then
      FetchResult.done (acc ++ parseTokenPrices (pages i).tokenPrices) (i + 1)
    else
      match oldestDate (pages i).tokenPrices with
      | none => FetchResult.done (acc ++ parseTokenPrices (pages i).tokenPrices) (i + 1)
      | some d =>
        if prevC = some d then
          FetchResult.done (acc ++ parseTokenPrices (pages i).tokenPrices) (i + 1)
        else fetchGo pages fuel (i + 1) (some d) toC (acc ++ parseTokenPrices (pages i).tokenPrices)

/-- `fetch_auction_prices(slug)` for a run whose responses are `pages`,
with fuel bounding the number of loop iterations. -/
def fetchAuctionPrices (pages : Nat → Page) (fuel : Nat) : FetchResult :=
  fetchGo pages fuel 0 none none []

/-- A finite response sequence, extended past its end by the empty page
(the API has no further data, so `tokenPrices` comes back empty). -/
def pagesOf (l : List Page) (i : Nat) : Page :=
  l.getD i ⟨[], []⟩

lemma fetchGo_succ (pages : Nat → Page) (fuel i : Nat) (toC prevC : Option String)
    (acc : List (String × ℚ)) :
    fetchGo pages (fuel + 1) i toC prevC acc =
      if hasComplexityError (pages i).errors then FetchResult.done acc (i + 1)
      else if (pages i).tokenPrices = [] then FetchResult.done acc (i + 1)
      else if (pages i).tokenPrices.length < BATCH_SIZE then
        FetchResult.done (acc ++ parseTokenPrices (pages i).tokenPrices) (i + 1)
      else
        match oldestDate (pages i).tokenPrices with
        | none => FetchResult.done (acc ++ parseTokenPrices (pages i).tokenPrices) (i + 1)
        | some d =>
          if prevC = some d then
            FetchResult.done (acc ++ parseTokenPrices (pages i).tokenPrices) (i + 1)
          else fetchGo pages fuel (i + 1) (some d) toC
            (acc ++ parseTokenPrices (pages i).tokenPrices) := rfl

lemma pagesOf_past_end (l : List Page) (i : Nat) (hi : l.length ≤ i) :
    pagesOf l i = ⟨[], []⟩ :=
  List.getD_eq_default l _ hi

lemma fetchGo_done_of_enough_fuel (l : List Page) :
    ∀ (fuel i : Nat) (toC prevC : Option String) (acc : List (String × ℚ)),
      i ≤ l.length → l.length + 1 ≤ i + fuel →
      ∃ recs n, fetchGo (pagesOf l) fuel i toC prevC acc = FetchResult.done recs n ∧
        n ≤ l.length + 1 := by
  intro fuel
  induction fuel with
  | zero =>
    intro i _ _ _ hi hf
    exfalso; omega
  | succ fuel ih =>
    intro i toC prevC acc hi hf
    rw [fetchGo_succ]
    by_cases hce : hasComplexityError (pagesOf l i).errors
    · exact ⟨acc, i + 1, by simp [hce], by omega⟩
    · by_cases hemp : (pagesOf l i).tokenPrices = []
      · exact ⟨acc, i + 1, by simp [hce, hemp], by omega⟩
      · have hlt : i < l.length := by
          by_contra hge
          exact hemp (by rw [pagesOf_past_end l i (by omega)])
        by_cases hsz : (pagesOf l i).tokenPrices.length < BATCH_SIZE
        · exact ⟨acc ++ parseTokenPrices (pagesOf l i).tokenPrices, i + 1,
            by simp [hce, hemp, hsz], by omega⟩
        · cases hod : oldestDate (pagesOf l i).tokenPrices with
          | none =>
            exact ⟨acc ++ parseTokenPrices (pagesOf l i).tokenPrices, i + 1,
              by simp [hce, hemp, hsz, hod], by omega⟩
          | some d =>
            by_cases hst : prevC = some d
            · exact ⟨acc ++ parseTokenPrices (pagesOf l i).tokenPrices, i + 1,
                by simp [hce, hemp, hsz, hod, hst], by omega⟩
            · rcases ih (i + 1) (some d) toC
                (acc ++ parseTokenPrices (pagesOf l i).tokenPrices)
                (by omega) (by omega) with ⟨recs, n, heq, hn⟩
              exact ⟨recs, n, by simp [hce, hemp, hsz, hod, hst, heq], hn⟩

/-- C3 (amended): for every response sequence with finitely many data pages —
after which the API answers with the empty page — pagination terminates: with
fuel for one request beyond the sequence the loop reaches a normal stop,
issuing at most one request per available page plus the final empty one. -/
theorem pagination_terminates (l : List Page) :
    ∃ recs n, fetchAuctionPrices (pagesOf l) (l.length + 1) = FetchResult.done recs n ∧
      n ≤ l.length + 1 :=
  fetchGo_done_of_enough_fuel l (l.length + 1) 0 none none [] (by omega) (by omega)

/-- Oldest date served at request `i` of the adversarial stream: the
period-three cycle c, b, a, c, b, a, … -/
def cycleDate (i : Nat) : String :=
  if i % 3 = 0 then "c" else if i % 3 = 1 then "b" else "a"

/-- Adversarial response stream: every page is error-free and full
(`BATCH_SIZE` records), with all dates of page `i` equal to `cycleDate i`. -/
def cyclePages (i : Nat) : Page :=
  ⟨[], List.replicate 20 ⟨some "x", 100, some (cycleDate i)⟩⟩

/-- A pagination run that never reaches a stopping branch: it exhausts every
fuel bound. -/
def runsForever (pages : Nat → Page) : Prop :=
  ∀ fuel, fetchGo pages fuel 0 none none [] = FetchResult.fuelOut

lemma oldestDate_cyclePages (i : Nat) :
    oldestDate (cyclePages i).tokenPrices = some (cycleDate i) := by
  have h3 : i % 3 = 0 ∨ i % 3 = 1 ∨ i % 3 = 2 := by omega
  rcases h3 with h | h | h <;> simp only [cyclePages, cycleDate, h] <;> decide

lemma cycleDate_ne_two (i : Nat) : cycleDate i ≠ cycleDate (i + 2) := by
  have h2 : (i + 2) % 3 = (i % 3 + 2) % 3 := by
    conv_lhs => rw [Nat.add_mod]
  have h3 : i % 3 = 0 ∨ i % 3 = 1 ∨ i % 3 = 2 := by omega
  rcases h3 with h | h | h <;>
    (rw [h] at h2; norm_num at h2; simp only [cycleDate, h, h2]; decide)

lemma cyclePages_never_stops :
    ∀ (fuel i : Nat) (toC prevC : Option String) (acc : List (String × ℚ)),
      prevC ≠ some (cycleDate i) → toC ≠ some (cycleDate (i + 1)) →
      fetchGo cyclePages fuel i toC prevC acc = FetchResult.fuelOut := by
  intro fuel
  induction fuel with
  | zero => intro i toC prevC acc _ _; rfl
  | succ fuel ih =>
    intro i toC prevC acc h1 h2
    rw [fetchGo_succ]
    have hce : hasComplexityError (cyclePages i).errors = false := rfl
    have hne : ¬ ((cyclePages i).tokenPrices = []) := by simp [cyclePages]
    have hsz : ¬ ((cyclePages i).tokenPrices.length < BATCH_SIZE) := by
      simp [cyclePages, BATCH_SIZE]
    have hod : oldestDate (cyclePages i).tokenPrices = some (cycleDate i) :=
      oldestDate_cyclePages i
    simp only [hce, Bool.false_eq_true, if_false, hne, hsz, hod, h1]
    exact ih (i + 1) (some (cycleDate i)) toC
      (acc ++ parseTokenPrices (cyclePages i).tokenPrices) h2
      (fun hc => cycleDate_ne_two i (Option.some.inj hc))

/-- C3 counterexample: on the misbehaving stream of always-full pages whose
oldest dates cycle with period three, the pagination loop never stops — the
cursor even increases on the a-to-c step and the stall guard, which only
compares the candidate against the cursor two calls back, is never hit — so
the claimed termination for every response sequence is false of the code. -/
theorem pagination_nonterminating_counterexample : runsForever cyclePages := by
  intro fuel
  exact cyclePages_never_stops fuel 0 none none [] (by simp) (by simp)

/-- C4: on a full, error-free, non-empty page the loop stops exactly when the
candidate next cursor is absent or equals `prev_cursor` — the cursor used two
requests before the one the candidate would be used for — and continues
otherwise, even when the candidate equals the cursor of the current request
(first occurrence of a repeated cursor). -/
theorem stall_guard (pages : Nat → Page) (fuel i : Nat) (toC prevC : Option String)
    (acc : List (String × ℚ))
    (hne : hasComplexityError (pages i).errors = false)
    (hnonempty : (pages i).tokenPrices ≠ [])
    (hfull : ¬ (pages i).tokenPrices.length < BATCH_SIZE) :
    (oldestDate (pages i).tokenPrices = none →
      fetchGo pages (fuel + 1) i toC prevC acc =
        FetchResult.done (acc ++ parseTokenPrices (pages i).tokenPrices) (i + 1)) ∧
    (∀ d, oldestDate (pages i).tokenPrices = some d → prevC = some d →
      fetchGo pages (fuel + 1) i toC prevC acc =
        FetchResult.done (acc ++ parseTokenPrices (pages i).tokenPrices) (i + 1)) ∧
    (∀ d, oldestDate (pages i).tokenPrices = some d → prevC ≠ some d →
      fetchGo pages (fuel + 1) i toC prevC acc =
        fetchGo pages fuel (i + 1) (some d) toC
          (acc ++ parseTokenPrices (pages i).tokenPrices)) := by
  refine ⟨?_, ?_, ?_⟩
  · intro hod
    rw [fetchGo_succ]
    simp [hne, hnonempty, hfull, hod]
  · intro d hod hst
    rw [fetchGo_succ]
    simp [hne, hnonempty, hfull, hod, hst]
  · intro d hod hst
    rw [fetchGo_succ]
    simp [hne, hnonempty, hfull, hod, hst]

/-- A full stalling page: twenty auction records, all dated "d". -/
def stallPage : Page :=
  ⟨[], List.replicate 20 ⟨some "x", 100, some "d"⟩⟩

/-- C4 witness: with every response equal to `stallPage`, the iteration whose
candidate cursor "d" merely equals the current cursor continues (first
occurrence), and the next iteration, where "d" equals `prev_cursor`, stops. -/
theorem stall_guard_witness :
    fetchGo (fun _ => stallPage) 3 1 (some "d") none [] =
      fetchGo (fun _ => stallPage) 2 2 (some "d") (some "d")
        ([] ++ parseTokenPrices stallPage.tokenPrices) ∧
    fetchGo (fun _ => stallPage) 2 2 (some "d") (some "d")
        ([] ++ parseTokenPrices stallPage.tokenPrices) =
      FetchResult.done (([] ++ parseTokenPrices stallPage.tokenPrices) ++
        parseTokenPrices stallPage.tokenPrices) 3 :=
  ⟨(stall_guard (fun _ => stallPage) 2 1 (some "d") none []
      (by decide) (by decide) (by decide)).2.2 "d" (by decide) (by decide),
   (stall_guard (fun _ => stallPage) 1 2 (some "d") (some "d")
      ([] ++ parseTokenPrices stallPage.tokenPrices)
      (by decide) (by decide) (by decide)).2.1 "d" (by decide) rfl⟩

/-- C6: whenever the response to the current page request carries a
complexity-budget error, the pagination loop stops at once and returns
exactly the records accumulated from the earlier pages. -/
theorem complexity_budget_partial_result (pages : Nat → Page) (fuel i : Nat)
    (toC prevC : Option String) (acc : List (String × ℚ))
    (hce : hasComplexityError (pages i).errors = true) :
    fetchGo pages (fuel + 1) i toC prevC acc = FetchResult.done acc (i + 1) := by
  rw [fetchGo_succ, if_pos hce]

/-- C6 witness: a budget-rejected page ends the run with the prior records. -/
theorem complexity_budget_partial_result_witness :
    fetchGo (fun _ => ⟨["Complexity limit exceeded"], []⟩) 5 1 (some "d") none
      [("d", 1)] = FetchResult.done [("d", 1)] 2 :=
  complexity_budget_partial_result (fun _ => ⟨["Complexity limit exceeded"], []⟩)
    4 1 (some "d") none [("d", 1)] (by decide)

/-- C7: every record kept from a page comes from an entry with a present,
non-empty deal identifier, and a page with no deal identifiers at all
contributes zero records. -/
theorem deal_filtering (tps : List TokenPrice) :
    (∀ r ∈ parseTokenPrices tps, ∃ tp, tp ∈ tps ∧ hasDealId tp = true ∧
      r = (tp.date.getD "", (tp.usdCents : ℚ) / 100)) ∧
    ((∀ tp ∈ tps, hasDealId tp = false) → parseTokenPrices tps = []) := by
  induction tps with
  | nil => exact ⟨by simp [parseTokenPrices], fun _ => rfl⟩
  | cons tp rest ih =>
    constructor
    · intro r hr
      by_cases hd : hasDealId tp
      · simp only [parseTokenPrices, if_pos hd, List.mem_cons] at hr
        rcases hr with hr | hr
        · exact ⟨tp, by simp, hd, hr⟩
        · rcases ih.1 r hr with ⟨tp', h1, h2, h3⟩
          exact ⟨tp', by simp [h1], h2, h3⟩
      · simp only [parseTokenPrices, if_neg hd] at hr
        rcases ih.1 r hr with ⟨tp', h1, h2, h3⟩
        exact ⟨tp', by simp [h1], h2, h3⟩
    · intro hall
      have hd : hasDealId tp = false := hall tp (by simp)
      simp only [parseTokenPrices, hd, Bool.false_eq_true, if_false]
      exact ih.2 fun tp' h => hall tp' (by simp [h])

/-- C7 witness: a page of price observations without deal ids yields nothing. -/
theorem deal_filtering_witness :
    parseTokenPrices [⟨none, 100, some "d"⟩, ⟨some "", 250, some "e"⟩] = [] :=
  (deal_filtering [⟨none, 100, some "d"⟩, ⟨some "", 250, some "e"⟩]).2 (by decide)

lemma leadsWith_append (p : List Char) :
    ∀ s t : List Char, leadsWith p s = true → leadsWith p (s ++ t) = true := by
  induction p with
  | nil => intro s t _; simp [leadsWith]
  | cons a ps ih =>
    intro s t h
    cases s with
    | nil => simp [leadsWith] at h
    | cons c cs =>
      simp only [leadsWith, Bool.and_eq_true, beq_iff_eq] at h
      simp only [List.cons_append, leadsWith, Bool.and_eq_true, beq_iff_eq]
      exact ⟨h.1, ih cs t h.2⟩

lemma containsSub_nil_pat (s : List Char) : containsSub [] s = true := by
  cases s <;> simp [containsSub, leadsWith]

lemma containsSub_append_right (p : List Char) :
    ∀ s t : List Char, containsSub p s = true → containsSub p (s ++ t) = true := by
  intro s
  induction s with
  | nil =>
    intro t h
    cases p with
    | nil => simpa using containsSub_nil_pat t
    | cons a ps => simp [containsSub, leadsWith] at h
  | cons c cs ih =>
    intro t h
    simp only [containsSub, Bool.or_eq_true] at h
    simp only [List.cons_append, containsSub, Bool.or_eq_true]
    rcases h with h | h
    · exact Or.inl (leadsWith_append p _ t h)
    · exact Or.inr (ih t h)

lemma containsSub_append_left (p : List Char) :
    ∀ s t : List Char, containsSub p t = true → containsSub p (s ++ t) = true := by
  intro s
  induction s with
  | nil => intro t h; simpa
  | cons c cs ih =>
    intro t h
    simp only [List.cons_append, containsSub, Bool.or_eq_true]
    exact Or.inr (ih t h)

lemma leadsWith_refl (p : List Char) : leadsWith p p = true := by
  induction p with
  | nil => rfl
  | cons a ps ih => simp [leadsWith, ih]

lemma containsSub_refl (p : List Char) : containsSub p p = true := by
  cases p with
  | nil => exact containsSub_nil_pat []
  | cons a ps => simp [containsSub, leadsWith_refl]

/-- Python `pat in s` on strings. -/
def strContains (s pat : String) : Bool :=
  containsSub pat.data s.data

lemma strContains_self (s : String) : strContains s s = true :=
  containsSub_refl s.data

lemma strContains_append_right (s t pat : String) (h : strContains s pat = true) :
    strContains (s ++ t) pat = true := by
  unfold strContains at h ⊢
  rw [String.data_append]
  exact containsSub_append_right pat.data s.data t.data h

lemma strContains_append_left (s t pat : String) (h : strContains t pat = true) :
    strContains (s ++ t) pat = true := by
  unfold strContains at h ⊢
  rw [String.data_append]
  exact containsSub_append_left pat.data s.data t.data h

/-- Python `"\n".join(alias_parts)` (src/fetch_auctions.py:111). -/
def joinNL : List String → String
  | [] => ""
  | [s] => s
  | s :: rest => s ++ "\n" ++ joinNL rest

lemma strContains_joinNL (l : List String) (x : String) (hx : x ∈ l) :
    strContains (joinNL l) x = true := by
  induction l with
  | nil => simp at hx
  | cons s rest ih =>
    cases rest with
    | nil =>
      simp only [List.mem_singleton] at hx
      subst hx
      exact strContains_self x
    | cons s' rest' =>
      rcases List.mem_cons.1 hx with hx | hx
      · subst hx
        exact strContains_append_right _ _ _ (strContains_append_right _ _ _ (strContains_self x))
      · exact strContains_append_left _ _ _ (ih hx)

/-- `TOKEN_PRICES_FIELDS` (src/fetch_auctions.py:58-68). -/
def tokenPricesFields : String :=
  "\n      amounts \x7b\n        usdCents\n      \x7d\n      date\n      deal \x7b\n        ... on TokenAuction \x7b\n          id\n        \x7d\n      \x7d\n"

/-- `QUERY` (src/fetch_auctions.py:34-55), the parameterized single-player
query; its `to` variable is the date-window cursor. -/
def QUERY : String :=
  "\nquery GetLimitedAuctionHistory($playerSlug: String!, $first: Int, $to: ISO8601DateTime) \x7b\n  tokens \x7b\n    tokenPrices(\n      playerSlug: $playerSlug\n      rarity: limited\n      first: $first\n      to: $to\n    ) \x7b\n      amounts \x7b\n        usdCents\n      \x7d\n      date\n      deal \x7b\n        ... on TokenAuction \x7b\n          id\n        \x7d\n      \x7d\n    \x7d\n  \x7d\n\x7d\n"

/-- One aliased sub-query of `build_batch_query` (src/fetch_auctions.py:108-110). -/
def aliasLine (i : Nat) (slug : String) : String :=
  "    player" ++ Nat.repr i ++ ": tokenPrices(playerSlug: \"" ++ slug ++
    "\", rarity: limited, first: " ++ Nat.repr BATCH_SIZE ++ ") \x7b" ++
    tokenPricesFields ++ "    \x7d"

/-- `build_batch_query(slugs)` (src/fetch_auctions.py:94-112). -/
def buildBatchQuery (slugs : List String) : String :=
  "query \x7b\n  tokens \x7b\n" ++ joinNL (slugs.enum.map fun q => aliasLine q.1 q.2) ++
    "\n  \x7d\n\x7d"

/-- Variables dict of the single-player request (src/fetch_auctions.py:198-200);
`toVar` models the optional `"to"` entry, the date-window cursor. -/
structure GraphQLVariables where
  playerSlug : String
  first : Nat
  toVar : Option String
deriving DecidableEq

/-- JSON payload of one POST to the API; `vars` models the optional
`"variables"` entry of `{"query": ..., "variables": ...?}`. -/
structure GraphQLRequest where
  query : String
  vars : Option GraphQLVariables
deriving DecidableEq

/-- Payload sent by one iteration of `fetch_auction_prices`
(src/fetch_auctions.py:198-210). -/
def singleRequest (slug : String) (toCursor : Option String) : GraphQLRequest :=
  ⟨QUERY, some ⟨slug, BATCH_SIZE, toCursor⟩⟩

/-- Payload sent by `fetch_batch_auction_prices` (src/fetch_auctions.py:137-142):
the batched query only, no variables at all. -/
def batchRequest (slugs : List String) : GraphQLRequest :=
  ⟨buildBatchQuery slugs, none⟩

/-- Response body of one batched request: `errors` messages and the aliased
`data.tokens.player{i}` lists, `or []`-defaulted as in
src/fetch_auctions.py:156-162. -/
structure BatchBody where
  errors : List String
  tokens : Nat → Option (List TokenPrice)

/-- `fetch_batch_auction_prices(slugs)` applied to a response `body`
(src/fetch_auctions.py:130-165): on a complexity error every slug maps to
`None`; otherwise each slug maps to the parsed records of its alias. -/
def fetchBatchAuctionPrices (slugs : List String) (body : BatchBody) :
    List (String × Option (List (String × ℚ))) :=
  if hasComplexityError body.errors then slugs.map fun s => (s, none)
  else slugs.enum.map fun q => (q.2, some (parseTokenPrices ((body.tokens q.1).getD [])))

/-- C5: one batch call either rejects uniformly — on a complexity-budget error
every slug receives the `None` sentinel — or succeeds uniformly — otherwise no
slug receives the sentinel. -/
theorem batch_uniform_fallback (slugs : List String) (body : BatchBody) :
    (hasComplexityError body.errors = true →
      ∀ p ∈ fetchBatchAuctionPrices slugs body, p.2 = none) ∧
    (hasComplexityError body.errors = false →
      ∀ p ∈ fetchBatchAuctionPrices slugs body, p.2 ≠ none) := by
  constructor
  · intro hce p hp
    simp only [fetchBatchAuctionPrices, hce, if_true, List.mem_map] at hp
    rcases hp with ⟨s, _, rfl⟩
    rfl
  · intro hce p hp
    simp only [fetchBatchAuctionPrices, hce, Bool.false_eq_true, if_false,
      List.mem_map] at hp
    rcases hp with ⟨q, _, rfl⟩
    simp

/-- C5 witness: a rejected batch is all-`None`, a clean batch has no `None`. -/
theorem batch_uniform_fallback_witness :
    (∀ p ∈ fetchBatchAuctionPrices ["a", "b"]
        ⟨["Complexity limit exceeded"], fun _ => none⟩, p.2 = none) ∧
    (∀ p ∈ fetchBatchAuctionPrices ["a", "b"] ⟨[], fun _ => none⟩, p.2 ≠ none) :=
  ⟨(batch_uniform_fallback ["a", "b"] ⟨["Complexity limit exceeded"], fun _ => none⟩).1
      (by decide),
   (batch_uniform_fallback ["a", "b"] ⟨[], fun _ => none⟩).2 (by decide)⟩

lemma length_parseTokenPrices_le (tps : List TokenPrice) :
    (parseTokenPrices tps).length ≤ tps.length := by
  induction tps with
  | nil => simp [parseTokenPrices]
  | cons tp rest ih =>
    by_cases hd : hasDealId tp <;> simp [parseTokenPrices, hd] <;> omega

/-- C9: the batched request carries no variables (hence no date-window
cursor), every per-entity alias sub-query appears in the batched query and
asks for `first: 20` records, and — whenever the response honors the
requested page size — each entity's success list holds at most
`BATCH_SIZE = 20` records.  The batch path performs a single exchange:
`fetchBatchAuctionPrices` consumes exactly one response body. -/
theorem batch_single_request_capped (slugs : List String) (body : BatchBody)
    (hhonor : ∀ j, ((body.tokens j).getD []).length ≤ BATCH_SIZE) :
    (batchRequest slugs).vars = none ∧
    (∀ p ∈ slugs.enum.map (fun q => aliasLine q.1 q.2),
      strContains (buildBatchQuery slugs) p = true) ∧
    (∀ i slug, strContains (aliasLine i slug) "first: 20" = true) ∧
    (∀ s l, (s, some l) ∈ fetchBatchAuctionPrices slugs body →
      l.length ≤ BATCH_SIZE) := by
  refine ⟨rfl, ?_, ?_, ?_⟩
  · intro p hp
    unfold buildBatchQuery
    exact strContains_append_right _ _ _
      (strContains_append_left _ _ _ (strContains_joinNL _ _ hp))
  · intro i slug
    have base : strContains ("\", rarity: limited, first: " ++ Nat.repr BATCH_SIZE)
        "first: 20" = true := by decide
    unfold aliasLine
    apply strContains_append_right
    apply strContains_append_right
    apply strContains_append_right
    rw [String.append_assoc ("    player" ++ Nat.repr i ++
      ": tokenPrices(playerSlug: \"" ++ slug)]
    exact strContains_append_left _ _ _ base
  · intro s l hm
    by_cases hce : hasComplexityError body.errors
    · simp only [fetchBatchAuctionPrices, hce, if_true, List.mem_map] at hm
      rcases hm with ⟨a, _, heq⟩
      have := congrArg Prod.snd heq
      simp at this
    · simp only [fetchBatchAuctionPrices, hce, Bool.false_eq_true, if_false,
        List.mem_map] at hm
      rcases hm with ⟨q, _, heq⟩
      have hsnd := congrArg Prod.snd heq
      simp only [Option.some.injEq] at hsnd
      have hl : l = parseTokenPrices ((body.tokens q.1).getD []) := by
        simpa using hsnd.symm
      rw [hl]
      exact le_trans (length_parseTokenPrices_le _) (hhonor q.1)

/-- C9 witness: concrete instance of the no-cursor / capped-batch theorem. -/
theorem batch_single_request_capped_witness :
    (batchRequest ["a"]).vars = none ∧
    strContains (aliasLine 0 "a") "first: 20" = true :=
  ⟨(batch_single_request_capped ["a"] ⟨[], fun _ => none⟩ (by intro j; simp [BATCH_SIZE])).1,
   (batch_single_request_capped ["a"] ⟨[], fun _ => none⟩ (by intro j; simp [BATCH_SIZE])).2.2.1 0 "a"⟩

/-- Observable file contents during `save_history` (src/fetch_auctions.py:176-179).
The function opens the target with mode "w", which truncates the file in
place, then `json.dump` writes the serialized updated history.  `old` is the
file's content before the call and `newC` the serialized history; each list
entry is a state a concurrent reader or an interrupted run can observe, in
order: before the call, after the truncating `open`, after the write. -/
def saveHistoryStates (old newC : String) : List String :=
  [old, "", newC]

/-- C8 counterexample: between the truncating `open(path, "w")` and the end of
`json.dump`, a reader observes an empty file that is neither the prior
persisted history nor the new one, so the persist step is not atomic. -/
theorem save_history_not_atomic :
    "" ∈ saveHistoryStates "\x7b\n  \"2024-01-01\": 12.5\n\x7d"
        "\x7b\n  \"2024-01-01\": 12.5,\n  \"2024-02-01\": 9.0\n\x7d" ∧
    "" ≠ "\x7b\n  \"2024-01-01\": 12.5\n\x7d" ∧
    "" ≠ "\x7b\n  \"2024-01-01\": 12.5,\n  \"2024-02-01\": 9.0\n\x7d" :=
  ⟨by simp [saveHistoryStates], by decide, by decide⟩

/-- C8 (amended): `save_history` fully replaces the file in place — before the
call the file holds the prior content and a completed call leaves exactly the
new serialized history — but the replacement is not atomic: the truncated
empty state is observable between the `open` and the completed write. -/
theorem save_history_full_replace (old newC : String) :
    (saveHistoryStates old newC).getLast? = some newC ∧
    (saveHistoryStates old newC).head? = some old ∧
    "" ∈ saveHistoryStates old newC := by
  refine ⟨by simp [saveHistoryStates], by simp [saveHistoryStates], by simp [saveHistoryStates]⟩

/-- Suffix chosen by `ordinal` (src/fetch_auctions.py:261-267): the
`{1: "st", 2: "nd", 3: "rd"}.get(n % 10, "th")` dispatch guarded by the
`11 <= (n % 100) <= 13` special case. -/
def ordinalSuffix (n : Nat) : String :=
  if 11 ≤ n % 100 ∧ n % 100 ≤ 13 then "th"
  else if n % 10 = 1 then "st"
  else if n % 10 = 2 then "nd"
  else if n % 10 = 3 then "rd"
  else "th"

/-- `ordinal(n)` (src/fetch_auctions.py:261-267): `f"{n}{suffix}"`. -/
def ordinal (n : Nat) : String :=
  Nat.repr n ++ ordinalSuffix n

/-- Modelled from the claim wording: the decimal string of `n` followed by
"th" when `n mod 100` is 11, 12 or 13, otherwise by "st"/"nd"/"rd"/"th"
according to the last digit. -/
def ordinalSpec (n : Nat) : String :=
  Nat.repr n ++
    (if n % 100 = 11 ∨ n % 100 = 12 ∨ n % 100 = 13 then "th"
     else if n % 10 = 1 then "st"
     else if n % 10 = 2 then "nd"
     else if n % 10 = 3 then "rd"
     else "th")

/-- C10: `ordinal` agrees everywhere with the claimed suffix rule, so 11, 12
and 13 get "th" rather than "11st"/"12nd"/"13rd". -/
theorem ordinal_matches_spec (n : Nat) : ordinal n = ordinalSpec n := by
  unfold ordinal ordinalSpec ordinalSuffix
  congr 1
  have h10 : n % 10 = n % 100 % 10 := (Nat.mod_mod_of_dvd n (by norm_num)).symm
  rw [h10]
  have hlt : n % 100 < 100 := Nat.mod_lt _ (by norm_num)
  revert hlt
  generalize n % 100 = r
  revert r
  decide
